import Mathlib

/-!
Shallow embedding of `src/fallback_hash.rs` (the aHash fallback hasher).

Machine integers `u64` are modelled as `Nat` together with explicit
reduction `% 2 ^ 64` at every wrapping operation, exactly where the Rust
code uses `wrapping_add` / `wrapping_mul` / `rotate_left`.  Byte slices are
`List Nat` whose elements are byte values (`< 256`); the little-endian
reinterpretation of a fixed window as an unsigned integer (the `convert`
collaborator) is `readW`.
-/

namespace AHash

/-- `MULTIPLE` from `fallback_hash.rs` line 6. -/
def MULTIPLE : Nat := 6364136223846793005

/-- `INCREMENT` from `fallback_hash.rs` line 7. -/
def INCREMENT : Nat := 1442695040888963407

/-- `ROT` from `fallback_hash.rs` line 8. -/
def ROT : Nat := 23

/-- Wrapping 64-bit addition (`u64::wrapping_add`). -/
def wadd (a b : Nat) : Nat := (a + b) % 2 ^ 64

/-- Wrapping 64-bit multiplication (`u64::wrapping_mul`). -/
def wmul (a b : Nat) : Nat := (a * b) % 2 ^ 64

/-- `u64::rotate_left`: for `x < 2 ^ 64` and `r ≤ 64`, the low `64 - r`
bits move up by `r` places and the high `r` bits wrap to the bottom. -/
def rotl (x r : Nat) : Nat := x % 2 ^ (64 - r) * 2 ^ r + x / 2 ^ (64 - r)

/-- The multiply-rotate-multiply diffusion step
`x.wrapping_mul(MULTIPLE).rotate_left(ROT).wrapping_mul(MULTIPLE)`,
shared by `update` (line 55), `ordered_update` (line 66) and `finish`
(line 146). -/
def mix (x : Nat) : Nat := wmul (rotl (wmul x MULTIPLE) ROT) MULTIPLE

/-- `struct AHasher { buffer: u64 }` (line 22). -/
structure AHasher where
  buffer : Nat
  deriving DecidableEq, Repr

/-- `AHasher::new_with_keys` (line 30): `key0 ^ key1.rotate_left(ROT)`. -/
def new_with_keys (key0 key1 : Nat) : AHasher :=
  ⟨key0 ^^^ rotl key1 ROT⟩

/-- `AHasher::update` (lines 54-57): the buffer is first diffused by
`mix` and the new word is folded in by XOR. -/
def update (h : AHasher) (new_data : Nat) : AHasher :=
  ⟨mix h.buffer ^^^ new_data⟩

/-- `AHasher::ordered_update` (lines 65-68): XOR the diffusion of
`new_data ^ key` into the buffer and return the advanced key. -/
def ordered_update (h : AHasher) (new_data key : Nat) : AHasher × Nat :=
  (⟨h.buffer ^^^ mix (new_data ^^^ key)⟩, wadd key INCREMENT)

/-- `Hasher::finish` (lines 145-147). -/
def finish (h : AHasher) : Nat := mix h.buffer

/-- Little-endian value of a byte list (the `convert` reinterpretation of
a raw byte window as an unsigned integer). -/
def leN : List Nat → Nat
  | [] => 0
  | b :: bs => b + 256 * leN bs

/-- Little-endian value of the `k`-byte window of `data` at offset `i`
(models `array_ref!(data, i, k).convert()`). -/
def readW (data : List Nat) (i k : Nat) : Nat := leN ((data.drop i).take k)

/-- The bulk `while data.len() > 16` loop of `write` (lines 115-124)
together with the two trailing mixes (lines 121-124): one last
`ordered_update` on the first 8 remaining bytes, then `update` on the
last 8 remaining bytes. -/
def bulkLoop (h : AHasher) (key : Nat) (data : List Nat) : AHasher :=
  if h16 : data.length > 16 then
    let val := readW data 0 8
    let p := ordered_update h val key
    bulkLoop p.1 p.2 (data.drop 8)
  else
    let val := readW data 0 8
    let p := ordered_update h val key
    let val2 := readW data (data.length - 8) 8
    update p.1 val2
termination_by data.length
decreasing_by
  simp only [List.length_drop]
  omega

/-- `Hasher::write` (lines 107-143): wrapping-add the length into the
buffer, then dispatch on the length bands exactly as the source does. -/
def write (h : AHasher) (input : List Nat) : AHasher :=
  let length := input.length
  let h1 : AHasher := ⟨wadd h.buffer length⟩
  if length > 8 then
    bulkLoop h1 h1.buffer input
  else if length ≥ 2 then
    if length ≥ 4 then
      let w0 := readW input 0 4
      let w1 := readW input (length - 4) 4
      update h1 (w0 + 2 ^ 32 * w1)
    else
      let w0 := readW input 0 2
      let w1 := readW input (length - 2) 2
      update h1 (w0 + 2 ^ 16 * w1)
  else if length ≥ 1 then
    update h1 (readW input 0 1)
  else
    h1

/-- `Hasher::write_u8` (lines 75-77): zero-extend and `update`. -/
def write_u8 (h : AHasher) (i : Nat) : AHasher := update h i

/-- `Hasher::write_u16` (lines 80-82). -/
def write_u16 (h : AHasher) (i : Nat) : AHasher := update h i

/-- `Hasher::write_u32` (lines 85-87). -/
def write_u32 (h : AHasher) (i : Nat) : AHasher := update h i

/-- `Hasher::write_u64` (lines 90-92). -/
def write_u64 (h : AHasher) (i : Nat) : AHasher := update h i

/-- `Hasher::write_u128` (lines 95-99): split into the low and high
64-bit words (little-endian `convert`) and `update` twice, low first. -/
def write_u128 (h : AHasher) (i : Nat) : AHasher :=
  update (update h (i % 2 ^ 64)) (i / 2 ^ 64 % 2 ^ 64)

/-- `Hasher::write_usize` (lines 102-104) on the 64-bit host the code
assumes: `write_u64(i as u64)`. -/
def write_usize (h : AHasher) (i : Nat) : AHasher := write_u64 h i

/-- The 8 little-endian bytes of a 64-bit value, used to feed a `u64`
through the slice path. -/
def leBytes8 (v : Nat) : List Nat :=
  [v % 256, v / 2 ^ 8 % 256, v / 2 ^ 16 % 256, v / 2 ^ 24 % 256,
   v / 2 ^ 32 % 256, v / 2 ^ 40 % 256, v / 2 ^ 48 % 256, v / 2 ^ 56 % 256]

/-- Multiplicative inverse of `MULTIPLE` modulo `2 ^ 64` (exists because
`MULTIPLE` is odd); used only to witness that `mix` is a bijection. -/
def MULTIPLE_INV : Nat := 13877824140714322085

/-- Explicit inverse of `mix`: undo the second multiply, the rotation and
the first multiply. -/
def mixInv (y : Nat) : Nat := wmul (rotl (wmul y MULTIPLE_INV) (64 - ROT)) MULTIPLE_INV

lemma wadd_lt (a b : Nat) : wadd a b < 2 ^ 64 :=
  Nat.mod_lt _ (by norm_num)

lemma wmul_lt (a b : Nat) : wmul a b < 2 ^ 64 :=
  Nat.mod_lt _ (by norm_num)

lemma xor_lt {x y : Nat} (hx : x < 2 ^ 64) (hy : y < 2 ^ 64) : x ^^^ y < 2 ^ 64 :=
  Nat.bitwise_lt hx hy

lemma rotl_lt {x : Nat} (r : Nat) (hr : r ≤ 64) (hx : x < 2 ^ 64) :
    rotl x r < 2 ^ 64 := by
  unfold rotl
  have h1 : x % 2 ^ (64 - r) < 2 ^ (64 - r) := Nat.mod_lt _ (Nat.two_pow_pos _)
  have h2 : x / 2 ^ (64 - r) < 2 ^ r := by
    apply Nat.div_lt_of_lt_mul
    calc x < 2 ^ 64 := hx
    _ = 2 ^ (64 - r) * 2 ^ r := by rw [← pow_add]; congr 1; omega
  have hsplit : 2 ^ (64 - r) * 2 ^ r = 2 ^ 64 := by rw [← pow_add]; congr 1; omega
  have hstep : (x % 2 ^ (64 - r) + 1) * 2 ^ r ≤ 2 ^ (64 - r) * 2 ^ r :=
    Nat.mul_le_mul (by omega) (Nat.le_refl _)
  have hexp : (x % 2 ^ (64 - r) + 1) * 2 ^ r
      = x % 2 ^ (64 - r) * 2 ^ r + 2 ^ r := by ring
  omega

lemma mix_lt (x : Nat) : mix x < 2 ^ 64 := wmul_lt _ _

/-- Rotating left by `r` and then by `64 - r` is the identity below `2 ^ 64`. -/
lemma rotl_rotl {x : Nat} (r : Nat) (hr0 : 0 < r) (hr : r ≤ 64) (hx : x < 2 ^ 64) :
    rotl (rotl x r) (64 - r) = x := by
  unfold rotl
  have hsub : 64 - (64 - r) = r := by omega
  rw [hsub]
  have hblt : x / 2 ^ (64 - r) < 2 ^ r := by
    apply Nat.div_lt_of_lt_mul
    calc x < 2 ^ 64 := hx
    _ = 2 ^ (64 - r) * 2 ^ r := by rw [← pow_add]; congr 1; omega
  have hmod : (x % 2 ^ (64 - r) * 2 ^ r + x / 2 ^ (64 - r)) % 2 ^ r
      = x / 2 ^ (64 - r) := by
    rw [Nat.mul_comm (x % 2 ^ (64 - r)), Nat.mul_add_mod]
    exact Nat.mod_eq_of_lt hblt
  have hdiv : (x % 2 ^ (64 - r) * 2 ^ r + x / 2 ^ (64 - r)) / 2 ^ r
      = x % 2 ^ (64 - r) := by
    rw [Nat.mul_comm (x % 2 ^ (64 - r)), Nat.mul_add_div (Nat.two_pow_pos _),
      Nat.div_eq_of_lt hblt, Nat.add_zero]
  rw [hmod, hdiv]
  have := Nat.div_add_mod' x (2 ^ (64 - r))
  omega

/-- Multiplying by `MULTIPLE` then by `MULTIPLE_INV` (both wrapping) is
the identity below `2 ^ 64`. -/
lemma wmul_wmul_inv {z : Nat} (hz : z < 2 ^ 64) :
    wmul (wmul z MULTIPLE) MULTIPLE_INV = z := by
  have hMM : MULTIPLE * MULTIPLE_INV % 2 ^ 64 = 1 := by
    norm_num [MULTIPLE, MULTIPLE_INV]
  unfold wmul
  rw [Nat.mod_mul_mod, Nat.mul_assoc, Nat.mul_mod, hMM, Nat.mul_one,
    Nat.mod_eq_of_lt hz, Nat.mod_eq_of_lt hz]

/-- Multiplying by `MULTIPLE_INV` then by `MULTIPLE` (both wrapping) is
the identity below `2 ^ 64`. -/
lemma wmul_inv_wmul {z : Nat} (hz : z < 2 ^ 64) :
    wmul (wmul z MULTIPLE_INV) MULTIPLE = z := by
  have hMM : MULTIPLE_INV * MULTIPLE % 2 ^ 64 = 1 := by
    norm_num [MULTIPLE, MULTIPLE_INV]
  unfold wmul
  rw [Nat.mod_mul_mod, Nat.mul_assoc, Nat.mul_mod, hMM, Nat.mul_one,
    Nat.mod_eq_of_lt hz, Nat.mod_eq_of_lt hz]

/-- Rotating left by 23 then by 41 is the identity below `2 ^ 64`. -/
lemma rotl_rotl_23 {x : Nat} (hx : x < 2 ^ 64) : rotl (rotl x 23) 41 = x := by
  have h := rotl_rotl 23 (by norm_num) (by norm_num) hx
  norm_num at h
  exact h

/-- Rotating left by 41 then by 23 is the identity below `2 ^ 64`. -/
lemma rotl_rotl_41 {x : Nat} (hx : x < 2 ^ 64) : rotl (rotl x 41) 23 = x := by
  have h := rotl_rotl 41 (by norm_num) (by norm_num) hx
  norm_num at h
  exact h

/-- `mixInv` undoes `mix` below `2 ^ 64`. -/
lemma mixInv_mix {x : Nat} (hx : x < 2 ^ 64) : mixInv (mix x) = x := by
  unfold mix mixInv
  have hR : ROT = 23 := rfl
  rw [hR]
  norm_num
  rw [wmul_wmul_inv (rotl_lt 23 (by norm_num) (wmul_lt _ _)),
    rotl_rotl_23 (wmul_lt _ _), wmul_wmul_inv hx]

/-- `mix` undoes `mixInv` below `2 ^ 64`. -/
lemma mix_mixInv {y : Nat} (hy : y < 2 ^ 64) : mix (mixInv y) = y := by
  unfold mix mixInv
  have hR : ROT = 23 := rfl
  rw [hR]
  norm_num
  rw [wmul_inv_wmul (rotl_lt 41 (by norm_num) (wmul_lt _ _)),
    rotl_rotl_41 (wmul_lt _ _), wmul_inv_wmul hy]

/-- `mix` is injective below `2 ^ 64`. -/
lemma mix_inj {a b : Nat} (ha : a < 2 ^ 64) (hb : b < 2 ^ 64)
    (h : mix a = mix b) : a = b := by
  have := congrArg mixInv h
  rwa [mixInv_mix ha, mixInv_mix hb] at this

lemma xor_right_inj {a b v : Nat} (h : a ^^^ v = b ^^^ v) : a = b := by
  have := congrArg (· ^^^ v) h
  simpa [Nat.xor_assoc] using this

/-- `write` on the empty slice: only the length add happens. -/
lemma write_band0 (h : AHasher) (input : List Nat) (hl : input.length = 0) :
    write h input = ⟨wadd h.buffer input.length⟩ := by
  simp only [write]
  rw [if_neg (by omega), if_neg (by omega), if_neg (by omega)]

/-- `write` on a 1-byte slice: one `update` with the byte. -/
lemma write_band1 (h : AHasher) (input : List Nat) (hl : input.length = 1) :
    write h input = update ⟨wadd h.buffer input.length⟩ (readW input 0 1) := by
  simp only [write]
  rw [if_neg (by omega), if_neg (by omega), if_pos (by omega)]

/-- `write` on a 2-3 byte slice: one `update` with two packed 16-bit words. -/
lemma write_band23 (h : AHasher) (input : List Nat)
    (h2 : 2 ≤ input.length) (h3 : input.length ≤ 3) :
    write h input = update ⟨wadd h.buffer input.length⟩
      (readW input 0 2 + 2 ^ 16 * readW input (input.length - 2) 2) := by
  simp only [write]
  rw [if_neg (by omega), if_pos (by omega), if_neg (by omega)]

/-- `write` on a 4-8 byte slice: one `update` with two packed 32-bit words. -/
lemma write_band48 (h : AHasher) (input : List Nat)
    (h4 : 4 ≤ input.length) (h8 : input.length ≤ 8) :
    write h input = update ⟨wadd h.buffer input.length⟩
      (readW input 0 4 + 2 ^ 32 * readW input (input.length - 4) 4) := by
  simp only [write]
  rw [if_neg (by omega), if_pos (by omega), if_pos (by omega)]

/-- `write` on a slice longer than 8 bytes enters the bulk path. -/
lemma write_bulk (h : AHasher) (input : List Nat) (h9 : 8 < input.length) :
    write h input
      = bulkLoop ⟨wadd h.buffer input.length⟩ (wadd h.buffer input.length) input := by
  simp only [write]
  rw [if_pos (by omega)]

/-- Packing the first 4 and last 4 bytes of `leBytes8 v` as two
little-endian 32-bit words reconstructs `v`. -/
lemma leBytes8_pack {v : Nat} (hv : v < 2 ^ 64) :
    readW (leBytes8 v) 0 4 + 2 ^ 32 * readW (leBytes8 v) 4 4 = v := by
  simp only [readW, leBytes8, leN, List.drop, List.take]
  norm_num
  omega

lemma leBytes8_length (v : Nat) : (leBytes8 v).length = 8 := rfl

lemma wadd_cancel {a b c : Nat} (hc : b ≠ c) (hb : b < 2 ^ 64) (hc' : c < 2 ^ 64)
    (h : wadd a b = wadd a c) : False := by
  unfold wadd at h
  omega

/-- C2: feeding the 8 little-endian bytes of a `u64` value `v` through the
slice path of `write` is exactly the scalar path `write_u64 v` started
from an accumulator that has additionally absorbed the length 8 by
wrapping add: the length-8 band packs the first and last 4 bytes as two
little-endian 32-bit words and reconstructs exactly `v`.  Consequently,
from the same starting state the two paths always produce different
digests (they differ by exactly the length add, and the mixing transform
is injective). -/
theorem claim_C2 (a v : Nat) (ha : a < 2 ^ 64) (hv : v < 2 ^ 64) :
    write ⟨a⟩ (leBytes8 v) = write_u64 ⟨wadd a 8⟩ v ∧
    finish (write ⟨a⟩ (leBytes8 v)) ≠ finish (write_u64 ⟨a⟩ v) := by
  have h1 : write ⟨a⟩ (leBytes8 v) = update ⟨wadd a 8⟩ v := by
    rw [write_band48 _ _ (by simp [leBytes8_length]) (by simp [leBytes8_length]),
      leBytes8_length, show (8 : Nat) - 4 = 4 from rfl, leBytes8_pack hv]
  refine ⟨h1, ?_⟩
  rw [h1]
  intro hcontra
  unfold write_u64 update finish at hcontra
  simp only at hcontra
  have e1 := mix_inj (xor_lt (mix_lt _) hv) (xor_lt (mix_lt _) hv) hcontra
  have e2 := xor_right_inj e1
  have e3 := mix_inj (wadd_lt _ _) ha e2
  unfold wadd at e3
  omega

/-- Witness for C2 at `a = 3`, `v = 12345`. -/
theorem claim_C2_witness :
    ((3 : Nat) < 2 ^ 64 ∧ (12345 : Nat) < 2 ^ 64) ∧
    (write ⟨3⟩ (leBytes8 12345) = write_u64 ⟨wadd 3 8⟩ 12345 ∧
     finish (write ⟨3⟩ (leBytes8 12345)) ≠ finish (write_u64 ⟨3⟩ 12345)) :=
  ⟨⟨by norm_num, by norm_num⟩, claim_C2 3 12345 (by norm_num) (by norm_num)⟩

/-- C3: the short bands of `write`.  After the length add, a slice of
length 4-8 is consumed by exactly one `update` with the first and last
4-byte little-endian words packed into one 64-bit value (first word in
the low half, from the little-endian array reinterpretation); a slice of
length 2-3 likewise with two 16-bit words packed into a 32-bit value
(zero-extension to 64 bits is the identity in the `Nat` model); a 1-byte
slice with the byte itself zero-extended; and the empty slice makes no
`update` call at all — the state is exactly the one after the length add. -/
theorem claim_C3 (h : AHasher) (input : List Nat) :
    (4 ≤ input.length → input.length ≤ 8 →
      write h input = update ⟨wadd h.buffer input.length⟩
        (readW input 0 4 + 2 ^ 32 * readW input (input.length - 4) 4)) ∧
    (2 ≤ input.length → input.length ≤ 3 →
      write h input = update ⟨wadd h.buffer input.length⟩
        (readW input 0 2 + 2 ^ 16 * readW input (input.length - 2) 2)) ∧
    (input.length = 1 →
      write h input = update ⟨wadd h.buffer 1⟩ (readW input 0 1)) ∧
    (input.length = 0 → write h input = ⟨wadd h.buffer 0⟩) :=
  ⟨fun h4 h8 => write_band48 h input h4 h8,
   fun h2 h3 => write_band23 h input h2 h3,
   fun h1 => by rw [write_band1 h input h1, h1],
   fun h0 => by rw [write_band0 h input h0, h0]⟩

/-- Witness for C3: one concrete input in each band. -/
theorem claim_C3_witness :
    write ⟨0⟩ [1, 2, 3, 4, 5] = update ⟨wadd 0 5⟩
      (readW [1, 2, 3, 4, 5] 0 4 + 2 ^ 32 * readW [1, 2, 3, 4, 5] 1 4) ∧
    write ⟨0⟩ [9, 9] = update ⟨wadd 0 2⟩
      (readW [9, 9] 0 2 + 2 ^ 16 * readW [9, 9] 0 2) ∧
    write ⟨0⟩ [7] = update ⟨wadd 0 1⟩ (readW [7] 0 1) ∧
    write ⟨0⟩ [] = ⟨wadd 0 0⟩ :=
  ⟨((claim_C3 ⟨0⟩ [1, 2, 3, 4, 5]).1 (by norm_num) (by norm_num)),
   ((claim_C3 ⟨0⟩ [9, 9]).2.1 (by norm_num) (by norm_num)),
   ((claim_C3 ⟨0⟩ [7]).2.2.1 rfl),
   ((claim_C3 ⟨0⟩ []).2.2.2 rfl)⟩

/-- C4: `finish` is the pure function
`a ↦ rotate_left(a * MULTIPLE, 23) * MULTIPLE` (wrapping) of the
accumulator.  In this embedding `finish : AHasher → Nat` takes the state
by value and returns only the digest, so it cannot mutate the
accumulator, and repeated calls with no intervening writes are literally
the same value. -/
theorem claim_C4 (a : Nat) :
    finish ⟨a⟩ = wmul (rotl (wmul a MULTIPLE) 23) MULTIPLE := rfl

/-- C5: for every key pair, the digests of the 1-byte input `[0x00]` and
the 2-byte input `[0x00, 0x00]` differ: both end in a single `update`
with the word 0, but the length add leaves the accumulators at distinct
values, and the mixing transform is injective. -/
theorem claim_C5 (key0 key1 : Nat) :
    finish (write (new_with_keys key0 key1) [0])
      ≠ finish (write (new_with_keys key0 key1) [0, 0]) := by
  intro hcontra
  rw [write_band1 _ [0] rfl, write_band23 _ [0, 0] (by norm_num) (by norm_num)] at hcontra
  norm_num [readW, leN, update, finish] at hcontra
  have e1 := mix_inj (mix_lt _) (mix_lt _) hcontra
  have e2 := mix_inj (wadd_lt _ _) (wadd_lt _ _) e1
  exact wadd_cancel (by norm_num) (by norm_num) (by norm_num) e2

/-- C9: there is no domain separation between the fixed integer widths:
all of `write_u8` / `write_u16` / `write_u32` / `write_u64` zero-extend
their argument and make the same single `update` call, so on any shared
value range they leave identical states, and `write_usize` is defined as
`write_u64` of the widened value. -/
theorem claim_C9 (h : AHasher) (v : Nat) :
    (v < 2 ^ 8 → write_u8 h v = write_u64 h v ∧ write_u16 h v = write_u64 h v ∧
      write_u32 h v = write_u64 h v) ∧
    (v < 2 ^ 16 → write_u16 h v = write_u64 h v ∧ write_u32 h v = write_u64 h v) ∧
    (v < 2 ^ 32 → write_u32 h v = write_u64 h v) ∧
    write_usize h v = write_u64 h v :=
  ⟨fun _ => ⟨rfl, rfl, rfl⟩, fun _ => ⟨rfl, rfl⟩, fun _ => rfl, rfl⟩

/-- Witness for C9 at `v = 5`. -/
theorem claim_C9_witness :
    ((5 : Nat) < 2 ^ 8 ∧ write_u8 ⟨0⟩ 5 = write_u64 ⟨0⟩ 5) ∧
    write_usize ⟨0⟩ 5 = write_u64 ⟨0⟩ 5 :=
  ⟨⟨by norm_num, ((claim_C9 ⟨0⟩ 5).1 (by norm_num)).1⟩, (claim_C9 ⟨0⟩ 5).2.2.2⟩

/-- C10: writing an empty byte slice leaves the accumulator unchanged:
the length add contributes 0 and no `update` / `ordered_update` call is
made, so empty writes inserted anywhere in a session never change the
final digest. -/
theorem claim_C10 (h : AHasher) (hb : h.buffer < 2 ^ 64) : write h [] = h := by
  obtain ⟨b⟩ := h
  rw [write_band0 _ [] rfl]
  simp only [List.length_nil, wadd, Nat.add_zero, AHasher.mk.injEq]
  exact Nat.mod_eq_of_lt hb

/-- Witness for C10 at buffer 7. -/
theorem claim_C10_witness :
    (AHasher.buffer ⟨7⟩ < 2 ^ 64) ∧ write ⟨7⟩ [] = (⟨7⟩ : AHasher) :=
  ⟨by norm_num, claim_C10 ⟨7⟩ (by norm_num)⟩

/-- Little-endian values of byte lists are bounded. -/
lemma leN_lt (l : List Nat) (hB : ∀ b ∈ l, b < 256) : leN l < 256 ^ l.length := by
  induction l with
  | nil => simp [leN]
  | cons b bs ih =>
    simp only [leN, List.length_cons, pow_succ]
    have hb := hB b (List.mem_cons_self _ _)
    have hbs := ih (fun x hx => hB x (List.mem_cons_of_mem _ hx))
    omega

/-- A `k`-byte window read is bounded by `256 ^ k`. -/
lemma readW_lt (data : List Nat) (i k : Nat) (hB : ∀ b ∈ data, b < 256) :
    readW data i k < 256 ^ k := by
  unfold readW
  have h1 : ∀ b ∈ (data.drop i).take k, b < 256 := fun b hb =>
    hB b (List.drop_subset _ _ (List.take_subset _ _ hb))
  have h3 : ((data.drop i).take k).length ≤ k := by
    simp [List.length_take]
  calc leN ((data.drop i).take k) < 256 ^ ((data.drop i).take k).length := leN_lt _ h1
  _ ≤ 256 ^ k := Nat.pow_le_pow_right (by norm_num) h3

/-- The bulk loop keeps the accumulator below `2 ^ 64`. -/
lemma bulkLoop_lt : ∀ (h : AHasher) (key : Nat) (data : List Nat),
    h.buffer < 2 ^ 64 → (∀ b ∈ data, b < 256) →
    (bulkLoop h key data).buffer < 2 ^ 64 := by
  intro h key data
  induction h, key, data using bulkLoop.induct with
  | case1 h key data h16 val p ih =>
    intro hb hB
    rw [bulkLoop, dif_pos h16]
    exact ih (xor_lt hb (mix_lt _)) (fun b hbm => hB b (List.drop_subset _ _ hbm))
  | case2 h key data h16 =>
    intro _hb hB
    rw [bulkLoop, dif_neg h16]
    have hv : readW data (data.length - 8) 8 < 2 ^ 64 := by
      have := readW_lt data (data.length - 8) 8 hB
      omega
    exact xor_lt (mix_lt _) hv

/-- Number of iterations of the `while data.len() > 16` loop as a
function of the byte count: each iteration strictly removes 8 bytes. -/
def loopIters (n : Nat) : Nat :=
  if n > 16 then loopIters (n - 8) + 1 else 0
termination_by n

/-- C7: `write` is total and never traps.  For every starting
accumulator below `2 ^ 64` and every byte slice, the result stays below
`2 ^ 64` (all arithmetic wraps modulo `2 ^ 64`); the bulk loop removes
exactly 8 bytes per iteration, so a 130-byte input runs it 15 (≥ 8)
times; and the trailing fixed-window extraction at offset
`length - 8` is in bounds: it yields a full 8-byte window whenever at
least 8 bytes are present. -/
theorem claim_C7 (h : AHasher) (input : List Nat) (_hb : h.buffer < 2 ^ 64)
    (hB : ∀ b ∈ input, b < 256) :
    (write h input).buffer < 2 ^ 64 ∧
    loopIters 130 = 15 ∧ 8 ≤ loopIters 130 ∧
    (∀ n : Nat, n > 16 → loopIters n = loopIters (n - 8) + 1) ∧
    (8 ≤ input.length → ((input.drop (input.length - 8)).take 8).length = 8) := by
  refine ⟨?_, by simp [loopIters], by simp [loopIters], ?_, ?_⟩
  · by_cases h9 : 8 < input.length
    · rw [write_bulk h input h9]
      exact bulkLoop_lt _ _ _ (wadd_lt _ _) hB
    · have h256_4 : (256 : Nat) ^ 4 = 2 ^ 32 := by norm_num
      have h256_2 : (256 : Nat) ^ 2 = 2 ^ 16 := by norm_num
      by_cases h2 : 2 ≤ input.length
      · by_cases h4 : 4 ≤ input.length
        · rw [write_band48 h input h4 (by omega)]
          have b0 := readW_lt input 0 4 hB
          have b1 := readW_lt input (input.length - 4) 4 hB
          exact xor_lt (mix_lt _) (by omega)
        · rw [write_band23 h input h2 (by omega)]
          have b0 := readW_lt input 0 2 hB
          have b1 := readW_lt input (input.length - 2) 2 hB
          exact xor_lt (mix_lt _) (by omega)
      · by_cases h1 : input.length = 1
        · rw [write_band1 h input h1]
          have b0 := readW_lt input 0 1 hB
          exact xor_lt (mix_lt _) (by norm_num at b0 ⊢; omega)
        · rw [write_band0 h input (by omega)]
          exact wadd_lt _ _
  · intro n hn
    rw [loopIters, if_pos hn]
  · intro h8
    simp only [List.length_take, List.length_drop]
    omega

/-- Witness for C7: a 130-byte input (all bytes 3) neither traps nor
escapes the 64-bit range. -/
theorem claim_C7_witness :
    ((AHasher.buffer ⟨0⟩ < 2 ^ 64) ∧ (∀ b ∈ List.replicate 130 3, b < 256)) ∧
    ((write ⟨0⟩ (List.replicate 130 3)).buffer < 2 ^ 64 ∧
     loopIters 130 = 15 ∧ 8 ≤ loopIters 130 ∧
     (∀ n : Nat, n > 16 → loopIters n = loopIters (n - 8) + 1) ∧
     (8 ≤ (List.replicate 130 3).length →
       (((List.replicate 130 3).drop ((List.replicate 130 3).length - 8)).take 8).length = 8)) :=
  ⟨⟨by norm_num, by simp [List.mem_replicate]⟩,
   claim_C7 ⟨0⟩ (List.replicate 130 3) (by norm_num)
     (by simp [List.mem_replicate])⟩

/-- States reached from distinct accumulators (both below `2 ^ 64`) by
the same sequence of `update` calls stay distinct. -/
lemma foldl_update_sep : ∀ (ws : List Nat) (a b : Nat), a < 2 ^ 64 → b < 2 ^ 64 →
    a ≠ b → (∀ w ∈ ws, w < 2 ^ 64) →
    (List.foldl update ⟨a⟩ ws).buffer < 2 ^ 64 ∧
    (List.foldl update ⟨b⟩ ws).buffer < 2 ^ 64 ∧
    (List.foldl update ⟨a⟩ ws).buffer ≠ (List.foldl update ⟨b⟩ ws).buffer := by
  intro ws
  induction ws with
  | nil => exact fun a b ha hb hne _ => ⟨ha, hb, hne⟩
  | cons w rest ih =>
    intro a b ha hb hne hws
    simp only [List.foldl_cons]
    have hw : w < 2 ^ 64 := hws w (List.mem_cons_self _ _)
    exact ih (mix a ^^^ w) (mix b ^^^ w) (xor_lt (mix_lt _) hw) (xor_lt (mix_lt _) hw)
      (fun e => hne (mix_inj ha hb (xor_right_inj e)))
      (fun x hx => hws x (List.mem_cons_of_mem _ hx))

/-- C8: the shared multiply-rotate-multiply transform `mix` is a
bijection on the 64-bit range (`mixInv`, built from the inverse of the
odd constant `MULTIPLE` and the complementary rotation, is a two-sided
inverse); consequently `update` with a fixed word is injective in the
prior accumulator, `finish` is injective, and two sessions whose
accumulators ever differ still differ after any common sequence of
fixed-width writes, and produce different digests. -/
theorem claim_C8 :
    (∀ x : Nat, x < 2 ^ 64 → mix x < 2 ^ 64 ∧ mixInv (mix x) = x ∧ mix (mixInv x) = x) ∧
    (∀ a b v : Nat, a < 2 ^ 64 → b < 2 ^ 64 → a ≠ b →
      (update ⟨a⟩ v).buffer ≠ (update ⟨b⟩ v).buffer) ∧
    (∀ a b : Nat, a < 2 ^ 64 → b < 2 ^ 64 → a ≠ b → finish ⟨a⟩ ≠ finish ⟨b⟩) ∧
    (∀ (ws : List Nat) (a b : Nat), a < 2 ^ 64 → b < 2 ^ 64 → a ≠ b →
      (∀ w ∈ ws, w < 2 ^ 64) →
      (List.foldl update ⟨a⟩ ws).buffer ≠ (List.foldl update ⟨b⟩ ws).buffer ∧
      finish (List.foldl update ⟨a⟩ ws) ≠ finish (List.foldl update ⟨b⟩ ws)) := by
  refine ⟨fun x hx => ⟨mix_lt x, mixInv_mix hx, mix_mixInv hx⟩, ?_, ?_, ?_⟩
  · intro a b v ha hb hne e
    exact hne (mix_inj ha hb (xor_right_inj e))
  · intro a b ha hb hne e
    exact hne (mix_inj ha hb e)
  · intro ws a b ha hb hne hws
    obtain ⟨hfa, hfb, hfne⟩ := foldl_update_sep ws a b ha hb hne hws
    exact ⟨hfne, fun e => hfne (mix_inj hfa hfb e)⟩

/-- Witness for C8 at `x = 5`, accumulators 0 and 1, write sequence `[2]`. -/
theorem claim_C8_witness :
    ((5 : Nat) < 2 ^ 64 ∧ mixInv (mix 5) = 5) ∧
    ((0 : Nat) ≠ 1 ∧ finish ⟨0⟩ ≠ finish ⟨1⟩) ∧
    finish (List.foldl update ⟨0⟩ [2]) ≠ finish (List.foldl update ⟨1⟩ [2]) :=
  ⟨⟨by norm_num, (claim_C8.1 5 (by norm_num)).2.1⟩,
   ⟨by norm_num, claim_C8.2.2.1 0 1 (by norm_num) (by norm_num) (by norm_num)⟩,
   (claim_C8.2.2.2 [2] 0 1 (by norm_num) (by norm_num) (by norm_num)
     (by intro w hw; simp at hw; omega)).2⟩

/-- One unfolding step of the bulk loop when more than 16 bytes remain. -/
lemma bulkLoop_cons {data : List Nat} (h : AHasher) (key : Nat)
    (h16 : data.length > 16) :
    bulkLoop h key data
      = bulkLoop (ordered_update h (readW data 0 8) key).1
          (ordered_update h (readW data 0 8) key).2 (data.drop 8) := by
  rw [bulkLoop, dif_pos h16]

/-- The bulk loop's exit: the final `ordered_update` on the first 8
remaining bytes and the final `update` on the last 8 remaining bytes. -/
lemma bulkLoop_exit {data : List Nat} (h : AHasher) (key : Nat)
    (h16 : ¬data.length > 16) :
    bulkLoop h key data
      = update (ordered_update h (readW data 0 8) key).1
          (readW data (data.length - 8) 8) := by
  rw [bulkLoop, dif_neg h16]

/-- The bulk-path procedure exactly as the claim words it: after the
length add, seed the ordering key with the accumulator, take 8-byte
blocks from the front while more than 16 bytes remain, then one last
`ordered_update` on the first 8 remaining bytes, then one `update` on
the last 8 bytes of the ORIGINAL input (the loop only removes bytes from
the front, so the last 8 remaining bytes are the last 8 original bytes;
this definition reads them from the original to mirror the claim's
words, for comparison with `write`). -/
def c1SpecLoop (h : AHasher) (key : Nat) (remaining original : List Nat) : AHasher :=
  if h16 : remaining.length > 16 then
    let p := ordered_update h (readW remaining 0 8) key
    c1SpecLoop p.1 p.2 (remaining.drop 8) original
  else
    let p := ordered_update h (readW remaining 0 8) key
    update p.1 (readW original (original.length - 8) 8)
termination_by remaining.length
decreasing_by
  simp only [List.length_drop]
  omega

/-- The full claimed procedure for `length > 16`. -/
def writeSpecC1 (h : AHasher) (input : List Nat) : AHasher :=
  c1SpecLoop ⟨wadd h.buffer input.length⟩ (wadd h.buffer input.length) input input

lemma c1SpecLoop_cons {remaining original : List Nat} (h : AHasher) (key : Nat)
    (h16 : remaining.length > 16) :
    c1SpecLoop h key remaining original
      = c1SpecLoop (ordered_update h (readW remaining 0 8) key).1
          (ordered_update h (readW remaining 0 8) key).2 (remaining.drop 8) original := by
  rw [c1SpecLoop, dif_pos h16]

lemma c1SpecLoop_exit {remaining original : List Nat} (h : AHasher) (key : Nat)
    (h16 : ¬remaining.length > 16) :
    c1SpecLoop h key remaining original
      = update (ordered_update h (readW remaining 0 8) key).1
          (readW original (original.length - 8) 8) := by
  rw [c1SpecLoop, dif_neg h16]

/-- On every suffix with at least 9 bytes left, the code's loop
(reading the tail window from the remaining bytes) agrees with the
claimed loop (reading the tail window from the original input). -/
lemma bulkLoop_eq_c1SpecLoop (orig : List Nat) : ∀ (n m : Nat) (h : AHasher) (key : Nat),
    orig.length - m = n → 9 ≤ n →
    bulkLoop h key (orig.drop m) = c1SpecLoop h key (orig.drop m) orig := by
  intro n
  induction n using Nat.strong_induction_on with
  | _ n ih =>
    intro m h key hn h9
    have hlen : (orig.drop m).length = orig.length - m := List.length_drop _ _
    by_cases h16 : (orig.drop m).length > 16
    · rw [bulkLoop_cons h key h16, c1SpecLoop_cons h key h16, List.drop_drop]
      exact ih (n - 8) (by omega) (m + 8) _ _ (by omega) (by omega)
    · rw [bulkLoop_exit h key h16, c1SpecLoop_exit h key h16]
      congr 1
      unfold readW
      rw [List.drop_drop, show m + ((List.drop m orig).length - 8) = orig.length - 8 by omega]

/-- Number of bytes remaining when the `while data.len() > 16` loop
exits, as a function of the byte count. -/
def remAfterLoop (n : Nat) : Nat :=
  if n > 16 then remAfterLoop (n - 8) else n
termination_by n

/-- After the loop, `r = remAfterLoop n` bytes remain; the final
`ordered_update` window covers positions `n - r` to `n - r + 7` of the
input, and the final `update` window covers positions `n - 8` to
`n - 1`.  They overlap exactly when the later window starts before the
earlier one ends. -/
def tailWindowsOverlap (n : Nat) : Prop :=
  n - 8 < n - remAfterLoop n + 8

lemma remAfterLoop_range : ∀ n : Nat, 16 < n →
    9 ≤ remAfterLoop n ∧ remAfterLoop n ≤ 16 := by
  intro n
  induction n using Nat.strong_induction_on with
  | _ n ih =>
    intro h16
    rw [remAfterLoop, if_pos h16]
    by_cases h16' : 16 < n - 8
    · exact ih (n - 8) (by omega) h16'
    · rw [remAfterLoop, if_neg (by omega)]
      omega

/-- C1 (amended): for every starting accumulator and every input longer
than 16 bytes, `write` is exactly the claimed procedure — wrapping-add
the length, seed the ordering key with the resulting accumulator,
`ordered_update` 8-byte front blocks while more than 16 bytes remain,
one final `ordered_update` on the first 8 remaining bytes, and one
final `update` on the last 8 bytes of the original input.  The two
final 8-byte windows overlap exactly when 9 to 15 bytes remain after
the loop; when exactly 16 remain they are adjacent and disjoint. -/
theorem claim_C1 (h : AHasher) (input : List Nat) (hlen : 16 < input.length) :
    write h input = writeSpecC1 h input ∧
    9 ≤ remAfterLoop input.length ∧ remAfterLoop input.length ≤ 16 ∧
    (tailWindowsOverlap input.length ↔ remAfterLoop input.length ≤ 15) := by
  obtain ⟨hr9, hr16⟩ := remAfterLoop_range input.length hlen
  refine ⟨?_, hr9, hr16, ?_⟩
  · rw [write_bulk h input (by omega)]
    unfold writeSpecC1
    have := bulkLoop_eq_c1SpecLoop input input.length 0 ⟨wadd h.buffer input.length⟩
      (wadd h.buffer input.length) (by omega) (by omega)
    simpa using this
  · unfold tailWindowsOverlap
    omega

/-- Witness for C1 (amended) on a concrete 17-byte input. -/
theorem claim_C1_witness :
    16 < (List.replicate 17 0).length ∧
    (write ⟨0⟩ (List.replicate 17 0) = writeSpecC1 ⟨0⟩ (List.replicate 17 0) ∧
     9 ≤ remAfterLoop (List.replicate 17 0).length ∧
     remAfterLoop (List.replicate 17 0).length ≤ 16 ∧
     (tailWindowsOverlap (List.replicate 17 0).length ↔
       remAfterLoop (List.replicate 17 0).length ≤ 15)) :=
  ⟨by simp, claim_C1 ⟨0⟩ (List.replicate 17 0) (by simp)⟩

/-- Counterexample to C1 as stated: on a 24-byte input the loop exits
with exactly 16 bytes remaining — inside the claimed 9-to-16 overlap
range — yet the two final 8-byte windows (positions 8-15 and 16-23) are
disjoint, so "the two final 8-byte windows overlap when 9 to 16 bytes
remain after the loop" is false. -/
theorem claim_C1_counterexample :
    remAfterLoop 24 = 16 ∧ 9 ≤ remAfterLoop 24 ∧ remAfterLoop 24 ≤ 16 ∧
    ¬tailWindowsOverlap 24 := by
  have h24 : remAfterLoop 24 = 16 := by
    simp [remAfterLoop]
  refine ⟨h24, by omega, by omega, ?_⟩
  unfold tailWindowsOverlap
  rw [h24]
  norm_num

lemma leBytes8_length' (v : Nat) : (leBytes8 v).length = 8 := rfl

/-- The little-endian bytes of a 64-bit value reassemble to the value. -/
lemma leN_leBytes8 {v : Nat} (hv : v < 2 ^ 64) : leN (leBytes8 v) = v := by
  simp only [leBytes8, leN]
  omega

lemma readW_head8 {v : Nat} (rest : List Nat) (hv : v < 2 ^ 64) :
    readW (leBytes8 v ++ rest) 0 8 = v := by
  unfold readW
  rw [List.drop_zero, List.take_left' (leBytes8_length' v), leN_leBytes8 hv]

/-- Symbolic evaluation of `write` on a 24-byte input made of three
8-byte blocks `x`, `y`, `z`: one loop iteration absorbs `x` with the
seeded key, the post-loop `ordered_update` absorbs `y` with the advanced
key, and the final `update` absorbs `z`. -/
lemma write3 (h : AHasher) (x y z : Nat) (hx : x < 2 ^ 64) (hy : y < 2 ^ 64)
    (hz : z < 2 ^ 64) :
    write h (leBytes8 x ++ leBytes8 y ++ leBytes8 z)
      = update ⟨wadd h.buffer 24 ^^^ mix (x ^^^ wadd h.buffer 24)
          ^^^ mix (y ^^^ wadd (wadd h.buffer 24) INCREMENT)⟩ z := by
  have h24 : (leBytes8 x ++ leBytes8 y ++ leBytes8 z).length = 24 := by
    simp [leBytes8]
  rw [write_bulk _ _ (by omega), h24, List.append_assoc,
    bulkLoop_cons _ _ (by simp [leBytes8]),
    readW_head8 _ hx, List.drop_left' (leBytes8_length' x),
    bulkLoop_exit _ _ (by simp [leBytes8]),
    readW_head8 _ hy]
  have hlen2 : (leBytes8 y ++ leBytes8 z).length = 16 := by simp [leBytes8]
  have htail : readW (leBytes8 y ++ leBytes8 z) ((leBytes8 y ++ leBytes8 z).length - 8) 8
      = z := by
    rw [hlen2, show (16 : Nat) - 8 = 8 from rfl]
    unfold readW
    rw [List.drop_left' (leBytes8_length' y),
      List.take_of_length_le (by rw [leBytes8_length']), leN_leBytes8 hz]
  rw [htail]
  rfl

lemma xor_left_inj {a u v : Nat} (h : a ^^^ u = a ^^^ v) : u = v := by
  have := congrArg (a ^^^ ·) h
  simpa [← Nat.xor_assoc, Nat.xor_self] using this

/-- C6 (amended): swapping the first two 8-byte blocks of a 24-byte
input changes the digest exactly when the key-dependent mixing condition
`mix(x ⊕ K0) ⊕ mix(y ⊕ K1) ≠ mix(y ⊕ K0) ⊕ mix(x ⊕ K1)` holds, where
`K0` is the ordering key seeded from the accumulator after the length
add and `K1 = K0 + INCREMENT` is the advanced key.  The condition holds
for generic blocks — the ordering-key threading does break the
commutativity of the XOR accumulation — but it fails on contrived
blocks (e.g. `y = x ⊕ K0 ⊕ K1`), so distinct permutations of the same
block multiset do not always produce different digests. -/
theorem claim_C6 (key0 key1 x y z : Nat) (hk0 : key0 < 2 ^ 64) (hk1 : key1 < 2 ^ 64)
    (hx : x < 2 ^ 64) (hy : y < 2 ^ 64) (hz : z < 2 ^ 64) :
    finish (write (new_with_keys key0 key1) (leBytes8 x ++ leBytes8 y ++ leBytes8 z))
      = finish (write (new_with_keys key0 key1) (leBytes8 y ++ leBytes8 x ++ leBytes8 z))
    ↔ mix (x ^^^ wadd (new_with_keys key0 key1).buffer 24)
        ^^^ mix (y ^^^ wadd (wadd (new_with_keys key0 key1).buffer 24) INCREMENT)
      = mix (y ^^^ wadd (new_with_keys key0 key1).buffer 24)
        ^^^ mix (x ^^^ wadd (wadd (new_with_keys key0 key1).buffer 24) INCREMENT) := by
  have hb : (new_with_keys key0 key1).buffer < 2 ^ 64 :=
    xor_lt hk0 (rotl_lt ROT (by norm_num [ROT]) hk1)
  set b := (new_with_keys key0 key1).buffer with hbdef
  set a0 := wadd b 24 with ha0
  set k1 := wadd a0 INCREMENT with hk1'
  rw [write3 _ _ _ _ hx hy hz, write3 _ _ _ _ hy hx hz]
  unfold finish update
  simp only []
  constructor
  · intro e
    have e1 := mix_inj (xor_lt (mix_lt _) hz) (xor_lt (mix_lt _) hz) e
    have e2 := xor_right_inj e1
    have e3 := mix_inj
      (xor_lt (xor_lt (wadd_lt _ _) (mix_lt _)) (mix_lt _))
      (xor_lt (xor_lt (wadd_lt _ _) (mix_lt _)) (mix_lt _)) e2
    rw [Nat.xor_assoc, Nat.xor_assoc] at e3
    exact xor_left_inj e3
  · intro e
    rw [Nat.xor_assoc, Nat.xor_assoc, e]

/-- Witness for C6 (amended): for blocks 1, 2, 3 under keys (0,0) the
condition is violated in the direction that matters — the digests of
1‖2‖3 and 2‖1‖3 really differ. -/
theorem claim_C6_witness :
    ((0 : Nat) < 2 ^ 64 ∧ (1 : Nat) < 2 ^ 64 ∧ (2 : Nat) < 2 ^ 64 ∧ (3 : Nat) < 2 ^ 64) ∧
    finish (write (new_with_keys 0 0) (leBytes8 1 ++ leBytes8 2 ++ leBytes8 3))
      ≠ finish (write (new_with_keys 0 0) (leBytes8 2 ++ leBytes8 1 ++ leBytes8 3)) :=
  ⟨⟨by norm_num, by norm_num, by norm_num, by norm_num⟩,
   fun e => absurd
     ((claim_C6 0 0 1 2 3 (by norm_num) (by norm_num) (by norm_num) (by norm_num)
       (by norm_num)).mp e)
     (by decide)⟩

/-- Counterexample to C6 as stated: under keys (0,0) the block sequences
`[0, y, 0]` and `[y, 0, 0]` with `y = 24 ⊕ (24 + INCREMENT) =
1442695040888963455` are distinct permutations of the same multiset of
8-byte blocks, their concatenations are 24 bytes long (> 16), and yet
their digests are equal: the claimed universal order sensitivity fails. -/
theorem claim_C6_counterexample :
    ([0, 1442695040888963455, 0] : List Nat) ≠ [1442695040888963455, 0, 0] ∧
    List.Perm ([0, 1442695040888963455, 0] : List Nat) [1442695040888963455, 0, 0] ∧
    (leBytes8 0 ++ leBytes8 1442695040888963455 ++ leBytes8 0).length = 24 ∧
    finish (write (new_with_keys 0 0)
        (leBytes8 0 ++ leBytes8 1442695040888963455 ++ leBytes8 0))
      = finish (write (new_with_keys 0 0)
        (leBytes8 1442695040888963455 ++ leBytes8 0 ++ leBytes8 0)) := by
  refine ⟨by decide, (List.Perm.swap 0 1442695040888963455 [0]).symm, by decide, ?_⟩
  simp [write, bulkLoop, new_with_keys, leBytes8, readW, leN, update, ordered_update,
    finish, wadd, wmul, rotl, mix, INCREMENT, MULTIPLE, ROT]

end AHash
